import Mathlib

/-!
Verification of the concurrent search core of the ore-cli fork
(src/src/mine.rs, find_hash_par) and its benchmark harness
(src/drillx/examples/example-2/src/main.rs).

The Rust code is shallowly embedded:
* u64 arithmetic becomes Nat with explicit saturation at 2^64 - 1 where the
  source uses saturating operations;
* the per-worker scan loops become step functions on explicit state records,
  iterated with Function.iterate; the wall clock is abstracted as a function
  from the iteration counter to elapsed whole seconds;
* the shared RwLock<u32> best tracker and the shared histogram counters are
  modelled twice: inside a single worker's state (sequential view) and as
  explicit interleavings of the individual atomic operations the source
  performs (read / write of the lock, fetch_add of the total, mutex-guarded
  bucket increment), to settle the concurrency claims;
* the external drillx hash is an oracle parameter mapping a nonce to either
  none (the hash function reported no result for this nonce) or a difficulty
  (with digest where needed).
-/

/-- The u64 nonce domain bound: u64::MAX. -/
def U64_MAX : Nat := 2 ^ 64 - 1

/-- Rust u64::saturating_div. For an unsigned type the quotient cannot
overflow, so this is plain division; the source never calls it with a zero
divisor on the paths modelled here (worker count W is at least 1). -/
def satDiv (a b : Nat) : Nat := a / b

/-- Rust u64::saturating_mul: the product clamped to u64::MAX. -/
def satMul (a b : Nat) : Nat := min (a * b) U64_MAX

/-- Starting nonce of worker i out of W, from mine.rs line 113:
u64::MAX.saturating_div(cores).saturating_mul(i). The benchmark harness
(main.rs line 29) computes the same value with plain division and
multiplication. -/
def partitionStart (W i : Nat) : Nat := satMul (satDiv U64_MAX W) i

/-- Little-endian byte encoding of a u64, from nonce.to_le_bytes(). -/
def toLeBytes (n : Nat) : List Nat := (List.range 8).map (fun k => n / 256 ^ k % 256)

/-- The drillx Hash value: digest bytes d and hash bytes h. -/
structure HashVal where
  d : List Nat
  h : List Nat
deriving DecidableEq, Repr

/-- Hash::default(): the all-zero sentinel digest. -/
def defaultHash : HashVal := ⟨List.replicate 16 0, List.replicate 32 0⟩

/-- The triple a worker returns: (best_nonce, best_difficulty, best_hash). -/
structure WorkerResult where
  nonce : Nat
  difficulty : Nat
  hash : HashVal
deriving DecidableEq, Repr

/-- One step of the join loop in find_hash_par (mine.rs lines 176-183):
replace the running best exactly when the candidate difficulty is strictly
greater. -/
def aggregateStep (best r : WorkerResult) : WorkerResult :=
  if best.difficulty < r.difficulty then r else best

/-- The running best the join loop starts from (mine.rs lines 172-174):
nonce 0, difficulty 0, Hash::default(). -/
def initBest : WorkerResult := ⟨0, 0, defaultHash⟩

/-- The result aggregator: fold the join loop over the worker results in
join order. -/
def aggregate (rs : List WorkerResult) : WorkerResult := rs.foldl aggregateStep initBest

/-- Handling of one joined handle (mine.rs lines 176-191): an Ok result is
a candidate for the running best, an Err is logged and skipped. -/
def joinStep (best : WorkerResult) (h : Except String WorkerResult) : WorkerResult :=
  match h with
  | Except.ok r => aggregateStep best r
  | Except.error _ => best

/-- The join loop over the workers' Result values (mine.rs lines 175-192). -/
def joinResults (hs : List (Except String WorkerResult)) : WorkerResult :=
  hs.foldl joinStep initBest

/-- The value find_hash_par finally builds (mine.rs line 201):
Solution::new(best_hash.d, best_nonce.to_le_bytes()). -/
def findHashParResult (rs : List WorkerResult) : List Nat × List Nat :=
  ((aggregate rs).hash.d, toLeBytes (aggregate rs).nonce)

/-- Spec-side definition (from the words of the claim, for comparison with
the source aggregator): the maximum difficulty over a result sequence, 0 for
the empty sequence. -/
def maxDifficulty : List WorkerResult → Nat
  | [] => 0
  | r :: tl => Nat.max r.difficulty (maxDifficulty tl)

/-- Spec-side definition (from the words of the claim): the first result in
join order whose difficulty equals M. -/
def firstAtMax (M : Nat) : List WorkerResult → Option WorkerResult
  | [] => none
  | r :: tl => if r.difficulty = M then some r else firstAtMax M tl

/-- The bounded-with-floor stop decision taken at a checkpoint of the
production loop (mine.rs lines 139-152): stop exactly when the elapsed time
has reached the cutoff and the global best difficulty has reached the
minimum difficulty floor. -/
def cutoffStop (elapsed cutoffTime globalBest minDifficulty : Nat) : Bool :=
  if cutoffTime ≤ elapsed then decide (minDifficulty ≤ globalBest) else false

/-- Checkpoint predicate of the production loop: the cutoff block runs at
iteration j exactly when the current nonce, start + j, is divisible by 100
(mine.rs line 138: if nonce % 100 == 0). -/
def prodCheckpoint (start j : Nat) : Bool := (start + j) % 100 == 0

/-- State of one production worker's scan loop (mine.rs lines 111-166),
instrumented with the worker-local iteration counter, the list of iterations
at which the cutoff block ran (evals) and the list of iterations at which a
progress-bar message was emitted (emits). The shared global best is carried
in-state: this is the single-worker view of the RwLock; the interleaved view
is modelled separately below. -/
structure ProdState where
  iter : Nat
  nonce : Nat
  bestNonce : Nat
  bestDiff : Nat
  bestHash : HashVal
  globalBest : Nat
  done : Bool
  evals : List Nat
  emits : List Nat
deriving DecidableEq, Repr

/-- Initial worker state (mine.rs lines 113-116): nonce and best_nonce start
at the partition start, best_difficulty 0, best_hash Hash::default(). -/
def prodInit (start : Nat) : ProdState :=
  ⟨0, start, start, 0, defaultHash, 0, false, [], []⟩

/-- The hash-and-update part of the loop body (mine.rs lines 119-135): on a
successful hash whose difficulty beats the local best, record it and raise
the global best if it also beats the value read from the tracker. -/
def hashUpdate (oracle : Nat → Option (Nat × HashVal)) (s : ProdState) : ProdState :=
  match oracle s.nonce with
  | some (d, hx) =>
    if s.bestDiff < d then
      { s with bestNonce := s.nonce, bestDiff := d, bestHash := hx,
               globalBest := if s.globalBest < d then d else s.globalBest }
    else s
  | none => s

/-- The checkpoint-and-advance part of the loop body (mine.rs lines
137-163): when the nonce is divisible by 100, the elapsed test runs; worker
index 0 emits a message in both branches of that test; the loop breaks
exactly when cutoffStop holds; otherwise the nonce advances by 1. -/
def checkpointUpdate (elapsedAt : Nat → Nat) (cutoffTime minDifficulty i : Nat)
    (s : ProdState) : ProdState :=
  if s.nonce % 100 = 0 then
    if cutoffStop (elapsedAt s.iter) cutoffTime s.globalBest minDifficulty then
      { s with evals := s.evals ++ [s.iter],
               emits := if i = 0 then s.emits ++ [s.iter] else s.emits,
               done := true }
    else
      { s with evals := s.evals ++ [s.iter],
               emits := if i = 0 then s.emits ++ [s.iter] else s.emits,
               nonce := s.nonce + 1, iter := s.iter + 1 }
  else
    { s with nonce := s.nonce + 1, iter := s.iter + 1 }

/-- One full iteration of a production worker's loop; a finished worker
(done) is frozen. -/
def prodStep (oracle : Nat → Option (Nat × HashVal)) (elapsedAt : Nat → Nat)
    (cutoffTime minDifficulty i : Nat) (s : ProdState) : ProdState :=
  if s.done then s
  else checkpointUpdate elapsedAt cutoffTime minDifficulty i (hashUpdate oracle s)

/-- The value the worker closure returns on exit (mine.rs line 166):
Ok((best_nonce, best_difficulty, best_hash)); no Err is ever built. -/
def workerReturn (s : ProdState) : Except String WorkerResult :=
  Except.ok ⟨s.bestNonce, s.bestDiff, s.bestHash⟩

/-- The benchmark histogram state (main.rs lines 20-21): the difficulty to
count mapping (a HashMap, modelled as an association list) and the running
total-hash counter. -/
structure HistState where
  total : Nat
  counts : List (Nat × Nat)
deriving DecidableEq, Repr

/-- Empty histogram at session start. -/
def hist0 : HistState := ⟨0, []⟩

/-- The bucket increment (main.rs line 47):
hash_count.entry(diff).or_insert(0) += 1 over the association-list model. -/
def bump : List (Nat × Nat) → Nat → List (Nat × Nat)
  | [], d => [(d, 1)]
  | (k, v) :: tl, d => if k = d then (k, v + 1) :: tl else (k, v) :: bump tl d

/-- Sum of all bucket counts. -/
def sumCounts (l : List (Nat × Nat)) : Nat := (l.map Prod.snd).sum

/-- The complete per-hash histogram update: the total counter increment
(main.rs line 42) together with the bucket increment (main.rs line 47). -/
def recordHash (s : HistState) (d : Nat) : HistState :=
  ⟨s.total + 1, bump s.counts d⟩

/-- Histogram after a sequence of successful hashes with the given
difficulties, each update completed in full. -/
def histRun (ds : List Nat) : HistState := ds.foldl recordHash hist0

/-- One atomic operation on the shared histogram, as the source performs
them: incTotal is total_hashes.fetch_add(1, Relaxed) (main.rs line 42),
incBucket d is the mutex-guarded bucket increment (main.rs lines 45-48).
The source issues them as two separate operations, total first. -/
inductive HistAction where
  | incTotal : HistAction
  | incBucket : Nat → HistAction
deriving DecidableEq, Repr

/-- Effect of one atomic histogram operation. -/
def histStep (s : HistState) (a : HistAction) : HistState :=
  match a with
  | HistAction.incTotal => { s with total := s.total + 1 }
  | HistAction.incBucket d => { s with counts := bump s.counts d }

/-- Shared histogram state after an arbitrary interleaving of the workers'
atomic operations; an observation point is the state after any such
prefix. -/
def histExec (sched : List HistAction) : HistState := sched.foldl histStep hist0

/-- Lookup with default 0 (main.rs line 81: hash_counts.get(i).unwrap_or(0))
over the association-list model. -/
def lookupCount : List (Nat × Nat) → Nat → Nat
  | [], _ => 0
  | (k, v) :: tl, d => if k = d then v else lookupCount tl d

/-- Maximum recorded difficulty key, 0 when the map is empty (main.rs line
71: hash_counts.keys().max().unwrap_or(0)). -/
def maxKey : List (Nat × Nat) → Nat
  | [] => 0
  | (k, _) :: tl => Nat.max k (maxKey tl)

/-- The report the benchmark print function produces (main.rs lines 70-84):
the average hashes per second (integer division, 0 when no second has
elapsed) and the ordered bucket line over the keys 0 through the maximum
observed key, 0 substituted for absent keys. -/
def printReport (counts : List (Nat × Nat)) (total elapsedSecs : Nat) :
    Nat × List (Nat × Nat) :=
  (if 0 < elapsedSecs then total / elapsedSecs else 0,
   (List.range (maxKey counts + 1)).map (fun k => (k, lookupCount counts k)))

/-- State of one benchmark worker's loop (main.rs lines 27-65), instrumented
like ProdState: evals records every iteration at which the fixed-duration
exit test ran, emits every iteration at which the worker called print. -/
structure BenchState where
  iter : Nat
  nonce : Nat
  hist : HistState
  done : Bool
  evals : List Nat
  emits : List Nat
deriving DecidableEq, Repr

/-- Initial benchmark worker state at its partition start. -/
def benchInit (start : Nat) : BenchState := ⟨0, start, hist0, false, [], []⟩

/-- The hash-and-record part of the benchmark loop body (main.rs lines
37-54): on a successful hash, both histogram counters are updated and, when
the current nonce is divisible by 1000, the worker calls print — with no
condition on the worker index. -/
def benchHashUpdate (oracle : Nat → Option Nat) (s : BenchState) : BenchState :=
  match oracle s.nonce with
  | some d =>
    if s.nonce % 1000 = 0 then
      { s with hist := recordHash s.hist d, emits := s.emits ++ [s.iter] }
    else
      { s with hist := recordHash s.hist d }
  | none => s

/-- One full iteration of a benchmark worker's loop: hash and record, then
nonce += 1 (main.rs line 57), then the fixed-duration exit test (main.rs
lines 60-62), which runs on every iteration. The worker index parameter is
captured by the source closure but never consulted for printing. -/
def benchStep (oracle : Nat → Option Nat) (elapsedAt : Nat → Nat)
    (duration _i : Nat) (s : BenchState) : BenchState :=
  if s.done then s
  else
    let s1 := benchHashUpdate oracle s
    if duration ≤ elapsedAt s1.iter then
      { s1 with nonce := s1.nonce + 1, evals := s1.evals ++ [s1.iter], done := true }
    else
      { s1 with nonce := s1.nonce + 1, evals := s1.evals ++ [s1.iter],
                iter := s1.iter + 1 }

/-- State of the shared RwLock<u32> best-difficulty tracker together with
the value each worker last read from it: pending w = some r records that
worker w has executed its read of the lock (mine.rs line 130) and observed
r, but has not yet executed the corresponding write (mine.rs line 131). -/
structure TrackerState where
  value : Nat
  pending : List (Option Nat)
deriving DecidableEq, Repr

/-- One atomic lock operation of the raise sequence a worker performs:
read w is worker w evaluating *global_best_difficulty.read().unwrap()
(mine.rs line 130); write w is worker w executing
*global_best_difficulty.write().unwrap() = best_difficulty (mine.rs line
131). The source takes the read lock and the write lock separately, so other
workers' operations can interleave between the two. -/
inductive RaiseEvent where
  | read : Nat → RaiseEvent
  | write : Nat → RaiseEvent
deriving DecidableEq, Repr

/-- Effect of one atomic lock operation; vals w is worker w's candidate
best_difficulty. The write only happens when the candidate exceeded the
value the worker read earlier (the if on mine.rs line 130), and it stores
the candidate unconditionally. -/
def raiseStep (vals : List Nat) (s : TrackerState) (e : RaiseEvent) : TrackerState :=
  match e with
  | RaiseEvent.read w => { s with pending := s.pending.set w (some s.value) }
  | RaiseEvent.write w =>
    match s.pending.get? w, vals.get? w with
    | some (some r), some v => if r < v then { s with value := v } else s
    | _, _ => s

/-- Tracker after an arbitrary interleaving of the workers' lock
operations, starting from the session-initial value 0 (mine.rs line 99). -/
def raiseExec (vals : List Nat) (sched : List RaiseEvent) : TrackerState :=
  sched.foldl (raiseStep vals) ⟨0, List.replicate vals.length none⟩

/-- The successive tracker values a peek would observe along a schedule:
the value after every prefix of the interleaving. -/
def raiseTrace (vals : List Nat) (sched : List RaiseEvent) : List Nat :=
  (List.scanl (raiseStep vals) ⟨0, List.replicate vals.length none⟩ sched).map
    TrackerState.value

/-- Folding the join step from a best that already dominates every element
leaves the best unchanged (the replacement test is strict). -/
lemma foldl_aggregate_fix (rs : List WorkerResult) :
    ∀ b : WorkerResult, (∀ r ∈ rs, r.difficulty ≤ b.difficulty) →
      rs.foldl aggregateStep b = b := by
  induction rs with
  | nil => intro b _; rfl
  | cons r tl ih =>
    intro b h
    have hr : r.difficulty ≤ b.difficulty := h r (List.mem_cons_self r tl)
    have hstep : aggregateStep b r = b := by
      unfold aggregateStep
      rw [if_neg (Nat.not_lt.mpr hr)]
    rw [List.foldl_cons, hstep]
    exact ih b (fun x hx => h x (List.mem_cons_of_mem r hx))

/-- Every element's difficulty is bounded by the sequence maximum. -/
lemma mem_le_maxDifficulty (rs : List WorkerResult) (x : WorkerResult)
    (hx : x ∈ rs) : x.difficulty ≤ maxDifficulty rs := by
  induction rs with
  | nil => cases hx
  | cons r tl ih =>
    rcases List.mem_cons.mp hx with h | h
    · subst h
      exact Nat.le_max_left _ _
    · exact Nat.le_trans (ih h) (Nat.le_max_right _ _)

/-- When the running best is strictly below the sequence maximum, the join
fold returns exactly the first element attaining the maximum. -/
lemma foldl_aggregate_first (rs : List WorkerResult) :
    ∀ b : WorkerResult, b.difficulty < maxDifficulty rs →
      firstAtMax (maxDifficulty rs) rs = some (rs.foldl aggregateStep b) := by
  induction rs with
  | nil => intro b hb; simp [maxDifficulty] at hb
  | cons r tl ih =>
    intro b hb
    have hb' : b.difficulty < Nat.max r.difficulty (maxDifficulty tl) := hb
    by_cases hr : b.difficulty < r.difficulty
    · by_cases ht : r.difficulty < maxDifficulty tl
      · have hM : maxDifficulty (r :: tl) = maxDifficulty tl :=
          Nat.max_eq_right (Nat.le_of_lt ht)
        have hne : ¬ (r.difficulty = maxDifficulty (r :: tl)) := by
          rw [hM]; omega
        have hstep : aggregateStep b r = r := by
          unfold aggregateStep; rw [if_pos hr]
        rw [List.foldl_cons, hstep]
        show (if r.difficulty = maxDifficulty (r :: tl) then some r
              else firstAtMax (maxDifficulty (r :: tl)) tl) = _
        rw [if_neg hne, hM]
        exact ih r ht
      · have hle : maxDifficulty tl ≤ r.difficulty := Nat.le_of_not_lt ht
        have hM : maxDifficulty (r :: tl) = r.difficulty := Nat.max_eq_left hle
        have hstep : aggregateStep b r = r := by
          unfold aggregateStep; rw [if_pos hr]
        rw [List.foldl_cons, hstep]
        have hfix : tl.foldl aggregateStep r = r :=
          foldl_aggregate_fix tl r
            (fun x hx => Nat.le_trans (mem_le_maxDifficulty tl x hx) hle)
        rw [hfix]
        show (if r.difficulty = maxDifficulty (r :: tl) then some r
              else firstAtMax (maxDifficulty (r :: tl)) tl) = some r
        rw [if_pos hM.symm]
    · have hr2 : r.difficulty ≤ b.difficulty := Nat.le_of_not_lt hr
      have ht : b.difficulty < maxDifficulty tl := by
        rcases lt_max_iff.mp hb' with h | h
        · omega
        · exact h
      have hM : maxDifficulty (r :: tl) = maxDifficulty tl :=
        Nat.max_eq_right (by omega)
      have hne : ¬ (r.difficulty = maxDifficulty (r :: tl)) := by
        rw [hM]; omega
      have hstep : aggregateStep b r = b := by
        unfold aggregateStep; rw [if_neg hr]
      rw [List.foldl_cons, hstep]
      show (if r.difficulty = maxDifficulty (r :: tl) then some r
            else firstAtMax (maxDifficulty (r :: tl)) tl) = _
      rw [if_neg hne, hM]
      exact ih b ht

/-- The first element found at difficulty M has difficulty M. -/
lemma firstAtMax_difficulty (M : Nat) (rs : List WorkerResult) (x : WorkerResult)
    (h : firstAtMax M rs = some x) : x.difficulty = M := by
  induction rs with
  | nil => simp [firstAtMax] at h
  | cons r tl ih =>
    by_cases hr : r.difficulty = M
    · have hh : firstAtMax M (r :: tl) = some r := by
        show (if r.difficulty = M then some r else firstAtMax M tl) = some r
        rw [if_pos hr]
      rw [hh] at h
      injection h with h
      rw [h] at hr
      exact hr
    · have hh : firstAtMax M (r :: tl) = firstAtMax M tl := by
        show (if r.difficulty = M then some r else firstAtMax M tl) = _
        rw [if_neg hr]
      rw [hh] at h
      exact ih h

/-- Incrementing a bucket raises the bucket-count sum by exactly one. -/
lemma sumCounts_bump (l : List (Nat × Nat)) (d : Nat) :
    sumCounts (bump l d) = sumCounts l + 1 := by
  induction l with
  | nil => rfl
  | cons p tl ih =>
    obtain ⟨k, v⟩ := p
    by_cases h : k = d
    · simp [bump, h, sumCounts]
      omega
    · simp [bump, h, sumCounts] at ih ⊢
      omega

/-- Completed per-hash updates preserve the total-equals-sum invariant. -/
lemma foldl_recordHash_inv (ds : List Nat) :
    ∀ s : HistState, s.total = sumCounts s.counts →
      (ds.foldl recordHash s).total = sumCounts (ds.foldl recordHash s).counts := by
  induction ds with
  | nil => intro s h; exact h
  | cons d tl ih =>
    intro s h
    rw [List.foldl_cons]
    refine ih _ ?_
    show (recordHash s d).total = sumCounts (recordHash s d).counts
    unfold recordHash
    simp only [sumCounts_bump]
    omega

/-- A key that never occurs in the map looks up to the default 0. -/
lemma lookupCount_not_mem (l : List (Nat × Nat)) (k : Nat)
    (h : k ∉ l.map Prod.fst) : lookupCount l k = 0 := by
  induction l with
  | nil => rfl
  | cons p tl ih =>
    obtain ⟨a, b⟩ := p
    simp only [List.map_cons, List.mem_cons] at h
    push_neg at h
    show (if a = k then b else lookupCount tl k) = 0
    rw [if_neg (fun hak => h.1 hak.symm)]
    exact ih h.2

/-- The hash-and-update part never touches the loop-control fields. -/
lemma hashUpdate_ctrl (oracle : Nat → Option (Nat × HashVal)) (s : ProdState) :
    (hashUpdate oracle s).iter = s.iter ∧ (hashUpdate oracle s).nonce = s.nonce ∧
    (hashUpdate oracle s).evals = s.evals ∧ (hashUpdate oracle s).emits = s.emits ∧
    (hashUpdate oracle s).done = s.done := by
  unfold hashUpdate
  cases oracle s.nonce with
  | none => exact ⟨rfl, rfl, rfl, rfl, rfl⟩
  | some p =>
    obtain ⟨d, hx⟩ := p
    by_cases h : s.bestDiff < d <;> simp [h]

/-- With an oracle that always reports no result the hash-and-update part is
the identity. -/
lemma hashUpdate_none (s : ProdState) : hashUpdate (fun _ => none) s = s := rfl

/-- The checkpoint part never touches the worker's local best. -/
lemma checkpointUpdate_best (elapsedAt : Nat → Nat) (c m i : Nat) (s : ProdState) :
    (checkpointUpdate elapsedAt c m i s).bestNonce = s.bestNonce ∧
    (checkpointUpdate elapsedAt c m i s).bestDiff = s.bestDiff ∧
    (checkpointUpdate elapsedAt c m i s).bestHash = s.bestHash := by
  unfold checkpointUpdate
  by_cases h1 : s.nonce % 100 = 0 <;>
    by_cases h2 : cutoffStop (elapsedAt s.iter) c s.globalBest m <;>
      simp [h1, h2]

/-- A worker with a nonzero index never emits at a checkpoint. -/
lemma checkpointUpdate_emits (elapsedAt : Nat → Nat) (c m i : Nat) (s : ProdState)
    (hi : i ≠ 0) : (checkpointUpdate elapsedAt c m i s).emits = s.emits := by
  unfold checkpointUpdate
  by_cases h1 : s.nonce % 100 = 0 <;>
    by_cases h2 : cutoffStop (elapsedAt s.iter) c s.globalBest m <;>
      simp [h1, h2, hi]

/-- A finished worker is frozen by the step function. -/
lemma prodStep_frozen (oracle : Nat → Option (Nat × HashVal)) (e : Nat → Nat)
    (c m i : Nat) (s : ProdState) (h : s.done = true) :
    prodStep oracle e c m i s = s := by
  unfold prodStep
  rw [h]
  simp

/-- A state that is not finished after a step was not finished before it. -/
lemma prodStep_not_done (oracle : Nat → Option (Nat × HashVal)) (e : Nat → Nat)
    (c m i : Nat) (s : ProdState)
    (h : (prodStep oracle e c m i s).done = false) : s.done = false := by
  cases hd : s.done with
  | false => rfl
  | true => rw [prodStep_frozen oracle e c m i s hd] at h; rw [hd] at h; cases h

/-- At a checkpoint where the stop decision is positive, the step finishes
the worker. -/
lemma checkpointUpdate_stop (elapsedAt : Nat → Nat) (c m i : Nat) (s : ProdState)
    (h1 : s.nonce % 100 = 0)
    (h2 : cutoffStop (elapsedAt s.iter) c s.globalBest m = true) :
    (checkpointUpdate elapsedAt c m i s).done = true := by
  unfold checkpointUpdate
  simp [h1, h2]

/-- At a checkpoint where the stop decision is negative, the worker records
the evaluation and advances. -/
lemma checkpointUpdate_go (elapsedAt : Nat → Nat) (c m i : Nat) (s : ProdState)
    (h1 : s.nonce % 100 = 0)
    (h2 : cutoffStop (elapsedAt s.iter) c s.globalBest m = false) :
    (checkpointUpdate elapsedAt c m i s).done = s.done ∧
    (checkpointUpdate elapsedAt c m i s).iter = s.iter + 1 ∧
    (checkpointUpdate elapsedAt c m i s).nonce = s.nonce + 1 ∧
    (checkpointUpdate elapsedAt c m i s).evals = s.evals ++ [s.iter] := by
  unfold checkpointUpdate
  simp [h1, h2]

/-- Away from a checkpoint the step only advances the nonce and the
iteration counter. -/
lemma checkpointUpdate_skip (elapsedAt : Nat → Nat) (c m i : Nat) (s : ProdState)
    (h1 : ¬ s.nonce % 100 = 0) :
    (checkpointUpdate elapsedAt c m i s).done = s.done ∧
    (checkpointUpdate elapsedAt c m i s).iter = s.iter + 1 ∧
    (checkpointUpdate elapsedAt c m i s).nonce = s.nonce + 1 ∧
    (checkpointUpdate elapsedAt c m i s).evals = s.evals := by
  unfold checkpointUpdate
  simp [h1]

/-- One production step preserves emits for a worker of nonzero index. -/
lemma prodStep_emits (oracle : Nat → Option (Nat × HashVal)) (e : Nat → Nat)
    (c m i : Nat) (s : ProdState) (hi : i ≠ 0) :
    (prodStep oracle e c m i s).emits = s.emits := by
  unfold prodStep
  by_cases hd : s.done = true
  · simp [hd]
  · rw [if_neg hd]
    rw [checkpointUpdate_emits e c m i _ hi]
    exact (hashUpdate_ctrl oracle s).2.2.2.1

/-- A worker of nonzero index never accumulates any emission. -/
lemma prod_emits_nonzero (oracle : Nat → Option (Nat × HashVal)) (e : Nat → Nat)
    (c m i start : Nat) (hi : i ≠ 0) :
    ∀ n, ((prodStep oracle e c m i)^[n] (prodInit start)).emits = [] := by
  intro n
  induction n with
  | zero => rfl
  | succ n ih =>
    rw [Function.iterate_succ_apply', prodStep_emits oracle e c m i _ hi, ih]

/-- With an always-failing oracle the local best fields never move off their
initial sentinel values. -/
lemma prod_best_none (e : Nat → Nat) (c m i start : Nat) :
    ∀ n, ((prodStep (fun _ => none) e c m i)^[n] (prodInit start)).bestNonce = start ∧
      ((prodStep (fun _ => none) e c m i)^[n] (prodInit start)).bestDiff = 0 ∧
      ((prodStep (fun _ => none) e c m i)^[n] (prodInit start)).bestHash = defaultHash := by
  intro n
  induction n with
  | zero => exact ⟨rfl, rfl, rfl⟩
  | succ n ih =>
    rw [Function.iterate_succ_apply']
    set s := (prodStep (fun _ => none) e c m i)^[n] (prodInit start) with hs
    by_cases hd : s.done = true
    · rw [prodStep_frozen _ e c m i s hd]
      exact ih
    · have hstep : prodStep (fun _ => none) e c m i s = checkpointUpdate e c m i s := by
        unfold prodStep
        rw [hashUpdate_none]
        simp [hd]
      rw [hstep]
      obtain ⟨h1, h2, h3⟩ := checkpointUpdate_best e c m i s
      rw [h1, h2, h3]
      exact ih

/-- Control-field characterization of a running production worker: after n
steps that have not finished it, the iteration counter is n, the nonce is
start + n, and the cutoff block has run exactly at the iterations whose
nonce was divisible by 100. -/
lemma prod_run_ctrl (oracle : Nat → Option (Nat × HashVal)) (e : Nat → Nat)
    (c m i start : Nat) :
    ∀ n, ((prodStep oracle e c m i)^[n] (prodInit start)).done = false →
      ((prodStep oracle e c m i)^[n] (prodInit start)).iter = n ∧
      ((prodStep oracle e c m i)^[n] (prodInit start)).nonce = start + n ∧
      ((prodStep oracle e c m i)^[n] (prodInit start)).evals
        = (List.range n).filter (prodCheckpoint start) := by
  intro n
  induction n with
  | zero => intro _; exact ⟨rfl, rfl, rfl⟩
  | succ n ih =>
    intro hdone
    rw [Function.iterate_succ_apply'] at hdone ⊢
    set s := (prodStep oracle e c m i)^[n] (prodInit start) with hs
    have hsd : s.done = false := prodStep_not_done oracle e c m i s hdone
    obtain ⟨hiter, hnonce, hevals⟩ := ih hsd
    have hstep : prodStep oracle e c m i s
        = checkpointUpdate e c m i (hashUpdate oracle s) := by
      unfold prodStep
      simp [hsd]
    rw [hstep] at hdone ⊢
    obtain ⟨u1, u2, u3, u4, u5⟩ := hashUpdate_ctrl oracle s
    set s1 := hashUpdate oracle s with hs1
    by_cases hcp : s1.nonce % 100 = 0
    · cases hstop : cutoffStop (e s1.iter) c s1.globalBest m with
      | true =>
        rw [checkpointUpdate_stop e c m i s1 hcp hstop] at hdone
        cases hdone
      | false =>
        obtain ⟨g1, g2, g3, g4⟩ := checkpointUpdate_go e c m i s1 hcp hstop
        refine ⟨?_, ?_, ?_⟩
        · rw [g2, u1, hiter]
        · rw [g3, u2, hnonce]
          omega
        · rw [g4, u3, u1, hevals, hiter]
          have hp : prodCheckpoint start n = true := by
            have hn : s1.nonce = start + n := by rw [u2, hnonce]
            rw [hn] at hcp
            simp only [prodCheckpoint]
            simpa using hcp
          rw [List.range_succ, List.filter_append]
          simp [hp]
    · obtain ⟨g1, g2, g3, g4⟩ := checkpointUpdate_skip e c m i s1 hcp
      refine ⟨?_, ?_, ?_⟩
      · rw [g2, u1, hiter]
      · rw [g3, u2, hnonce]
        omega
      · rw [g4, u3, hevals]
        have hp : prodCheckpoint start n = false := by
          have hn : s1.nonce = start + n := by rw [u2, hnonce]
          rw [hn] at hcp
          simp only [prodCheckpoint]
          simpa using hcp
        rw [List.range_succ, List.filter_append]
        simp [hp]

/-- The benchmark hash-and-record part never touches the loop-control
fields. -/
lemma benchHashUpdate_ctrl (oracle : Nat → Option Nat) (s : BenchState) :
    (benchHashUpdate oracle s).iter = s.iter ∧
    (benchHashUpdate oracle s).nonce = s.nonce ∧
    (benchHashUpdate oracle s).evals = s.evals ∧
    (benchHashUpdate oracle s).done = s.done := by
  unfold benchHashUpdate
  cases oracle s.nonce with
  | none => exact ⟨rfl, rfl, rfl, rfl⟩
  | some d => by_cases h : s.nonce % 1000 = 0 <;> simp [h]

/-- A finished benchmark worker is frozen by the step function. -/
lemma benchStep_frozen (oracle : Nat → Option Nat) (e : Nat → Nat) (dur i : Nat)
    (s : BenchState) (h : s.done = true) : benchStep oracle e dur i s = s := by
  unfold benchStep
  rw [if_pos h]

/-- A benchmark state not finished after a step was not finished before. -/
lemma benchStep_not_done (oracle : Nat → Option Nat) (e : Nat → Nat) (dur i : Nat)
    (s : BenchState) (h : (benchStep oracle e dur i s).done = false) :
    s.done = false := by
  cases hd : s.done with
  | false => rfl
  | true => rw [benchStep_frozen oracle e dur i s hd] at h; rw [hd] at h; cases h

/-- A running benchmark step always records the exit-test evaluation and,
when it does not finish the worker, advances the iteration counter. -/
lemma benchStep_go (oracle : Nat → Option Nat) (e : Nat → Nat) (dur i : Nat)
    (s : BenchState) (hd : s.done = false) :
    (benchStep oracle e dur i s).evals = s.evals ++ [s.iter] ∧
    ((benchStep oracle e dur i s).done = false →
      (benchStep oracle e dur i s).iter = s.iter + 1) := by
  obtain ⟨u1, u2, u3, u4⟩ := benchHashUpdate_ctrl oracle s
  unfold benchStep
  rw [if_neg (by rw [hd]; exact Bool.false_ne_true)]
  by_cases hdur : dur ≤ e (benchHashUpdate oracle s).iter
  · rw [if_pos hdur]
    simp [u1, u3]
  · rw [if_neg hdur]
    simp [u1, u3]

/-- A benchmark step preserves the total-equals-sum histogram invariant. -/
lemma benchStep_hist_inv (oracle : Nat → Option Nat) (e : Nat → Nat) (dur i : Nat)
    (s : BenchState) (h : s.hist.total = sumCounts s.hist.counts) :
    (benchStep oracle e dur i s).hist.total
      = sumCounts (benchStep oracle e dur i s).hist.counts := by
  have hrec : ∀ d, (recordHash s.hist d).total = sumCounts (recordHash s.hist d).counts := by
    intro d
    unfold recordHash
    simp only [sumCounts_bump]
    omega
  unfold benchStep benchHashUpdate
  by_cases hd : s.done = true
  · rw [if_pos hd]
    exact h
  · rw [if_neg hd]
    cases ho : oracle s.nonce with
    | none =>
      by_cases hdur : dur ≤ e s.iter <;> simp [hdur] <;> exact h
    | some d =>
      by_cases hk : s.nonce % 1000 = 0 <;>
        by_cases hdur : dur ≤ e s.iter <;>
          simp [hk, hdur] <;> exact hrec d

/-- At every point of a benchmark worker's run the histogram total equals
the sum of the bucket counts (sequential view of the shared state). -/
lemma bench_run_hist (oracle : Nat → Option Nat) (e : Nat → Nat)
    (dur i start : Nat) :
    ∀ n, ((benchStep oracle e dur i)^[n] (benchInit start)).hist.total
      = sumCounts ((benchStep oracle e dur i)^[n] (benchInit start)).hist.counts := by
  intro n
  induction n with
  | zero => rfl
  | succ n ih =>
    rw [Function.iterate_succ_apply']
    exact benchStep_hist_inv oracle e dur i _ ih

/-- Control-field characterization of a running benchmark worker: after n
steps that have not finished it, the iteration counter is n and the
fixed-duration exit test has run at every single iteration. -/
lemma bench_run_ctrl (oracle : Nat → Option Nat) (e : Nat → Nat)
    (dur i start : Nat) :
    ∀ n, ((benchStep oracle e dur i)^[n] (benchInit start)).done = false →
      ((benchStep oracle e dur i)^[n] (benchInit start)).iter = n ∧
      ((benchStep oracle e dur i)^[n] (benchInit start)).evals = List.range n := by
  intro n
  induction n with
  | zero => intro _; exact ⟨rfl, rfl⟩
  | succ n ih =>
    intro hdone
    rw [Function.iterate_succ_apply'] at hdone ⊢
    set s := (benchStep oracle e dur i)^[n] (benchInit start) with hs
    have hsd : s.done = false := benchStep_not_done oracle e dur i s hdone
    obtain ⟨hiter, hevals⟩ := ih hsd
    obtain ⟨g1, g2⟩ := benchStep_go oracle e dur i s hsd
    refine ⟨?_, ?_⟩
    · rw [g2 hdone, hiter]
    · rw [g1, hevals, hiter, List.range_succ]

/-- Folding the join step over sentinel results (difficulty 0) leaves any
running best unchanged. -/
lemma foldl_joinStep_sentinels (starts : List Nat) :
    ∀ b : WorkerResult,
      (starts.map (fun st =>
        (Except.ok (WorkerResult.mk st 0 defaultHash) : Except String WorkerResult))).foldl
          joinStep b = b := by
  induction starts with
  | nil => intro b; rfl
  | cons a tl ih =>
    intro b
    rw [List.map_cons, List.foldl_cons]
    have hred : joinStep b (Except.ok (WorkerResult.mk a 0 defaultHash)) = b := by
      show aggregateStep b (WorkerResult.mk a 0 defaultHash) = b
      unfold aggregateStep
      rw [if_neg (Nat.not_lt_zero _)]
    rw [hred]
    exact ih b

/-- Exactly one checkpoint of the production loop falls in any window of
100 consecutive iterations. -/
lemma prodCheckpoint_window (start j : Nat) :
    ∃ u, j ≤ u ∧ u < j + 100 ∧ prodCheckpoint start u = true ∧
      ∀ v, j ≤ v → v < j + 100 → prodCheckpoint start v = true → v = u := by
  have hiff : ∀ w, prodCheckpoint start w = true ↔ (start + w) % 100 = 0 := by
    intro w
    simp [prodCheckpoint]
  refine ⟨j + (100 - (start + j) % 100) % 100, by omega, by omega, ?_, ?_⟩
  · rw [hiff]
    omega
  · intro v h1 h2 h3
    rw [hiff] at h3
    omega

/-- Claim C1: the source's raise is not atomic — it takes the read lock,
compares, drops it, and only then takes the write lock and stores
unconditionally (mine.rs lines 130-133). Under the interleaving in which
worker 0 (candidate 9) and worker 1 (candidate 7) both read the initial
value 0 before either writes, worker 0 writes 9 and worker 1 then
overwrites it with 7: the tracker ends at 7, not at max 9 7, and a peek
sequence observes 9 followed by the smaller 7, so the tracked value is not
monotone. This refutes the claimed atomic compare-and-set semantics on the
code as written. -/
theorem raise_race_loses_update :
    (raiseExec [9, 7] [RaiseEvent.read 0, RaiseEvent.read 1, RaiseEvent.write 0,
      RaiseEvent.write 1]).value = 7 ∧
    raiseTrace [9, 7] [RaiseEvent.read 0, RaiseEvent.read 1, RaiseEvent.write 0,
      RaiseEvent.write 1] = [0, 0, 0, 9, 7] ∧
    (raiseExec [9, 7] [RaiseEvent.read 0, RaiseEvent.read 1, RaiseEvent.write 0,
      RaiseEvent.write 1]).value ≠ Nat.max 9 7 := by decide

/-- Claim C2: the bounded-with-floor stop decision, exactly as the claim
states it: before the cutoff the worker always continues; at or past the
cutoff it stops exactly when the global best has reached the minimum
difficulty floor, and otherwise continues with no further time bound. -/
theorem cutoff_policy_cases (elapsed cutoffTime globalBest minDifficulty : Nat) :
    (elapsed < cutoffTime →
      cutoffStop elapsed cutoffTime globalBest minDifficulty = false) ∧
    (cutoffTime ≤ elapsed → minDifficulty ≤ globalBest →
      cutoffStop elapsed cutoffTime globalBest minDifficulty = true) ∧
    (cutoffTime ≤ elapsed → globalBest < minDifficulty →
      cutoffStop elapsed cutoffTime globalBest minDifficulty = false) := by
  unfold cutoffStop
  refine ⟨fun h1 => ?_, fun h1 h2 => ?_, fun h1 h2 => ?_⟩
  · exact if_neg (by omega)
  · rw [if_pos h1]
    exact decide_eq_true h2
  · rw [if_pos h1]
    exact decide_eq_false (by omega)

/-- Witness for C2 at concrete inputs: each of the three cases of the
policy evaluated at one point. -/
theorem cutoff_policy_cases_witness :
    cutoffStop 5 10 99 0 = false ∧ cutoffStop 10 10 3 3 = true ∧
    cutoffStop 10 10 2 3 = false :=
  ⟨(cutoff_policy_cases 5 10 99 0).1 (by decide),
   (cutoff_policy_cases 10 10 3 3).2.1 (by decide) (by decide),
   (cutoff_policy_cases 10 10 2 3).2.2 (by decide) (by decide)⟩

/-- Counterexample to claim C3 as stated: for the single worker result
(nonce 5, difficulty 0), the first (and only) result attaining the maximum
difficulty 0 is that result itself, but the aggregator returns its internal
initial best (nonce 0, difficulty 0, default digest), not the result at the
earliest position. The claim's tie rule fails when the maximum difficulty
is 0. -/
theorem aggregator_zero_max_counterexample :
    firstAtMax (maxDifficulty [WorkerResult.mk 5 0 defaultHash])
        [WorkerResult.mk 5 0 defaultHash] = some (WorkerResult.mk 5 0 defaultHash) ∧
    aggregate [WorkerResult.mk 5 0 defaultHash] = WorkerResult.mk 0 0 defaultHash ∧
    ¬ (firstAtMax (maxDifficulty [WorkerResult.mk 5 0 defaultHash])
        [WorkerResult.mk 5 0 defaultHash]
          = some (aggregate [WorkerResult.mk 5 0 defaultHash])) := by decide

/-- Claim C3 amended: whenever the maximum difficulty over the results is
positive, the aggregator returns a result of exactly that maximum
difficulty, and it is the first result in join order attaining it (first
occurrence wins on ties); when every result has difficulty 0 the aggregator
instead returns its initial sentinel. -/
theorem aggregator_first_at_positive_max (rs : List WorkerResult)
    (h : 0 < maxDifficulty rs) :
    (aggregate rs).difficulty = maxDifficulty rs ∧
    firstAtMax (maxDifficulty rs) rs = some (aggregate rs) := by
  have hfirst := foldl_aggregate_first rs initBest h
  exact ⟨firstAtMax_difficulty _ _ _ hfirst, hfirst⟩

/-- Witness for C3 on the spec's own example: difficulties [5, 9, 9] in
join order; the aggregator returns the second result, the first occurrence
of the maximum 9. -/
theorem aggregator_first_at_positive_max_witness :
    (aggregate [WorkerResult.mk 11 5 defaultHash, WorkerResult.mk 22 9 defaultHash,
        WorkerResult.mk 33 9 defaultHash]).difficulty
      = maxDifficulty [WorkerResult.mk 11 5 defaultHash, WorkerResult.mk 22 9 defaultHash,
          WorkerResult.mk 33 9 defaultHash] ∧
    firstAtMax (maxDifficulty [WorkerResult.mk 11 5 defaultHash,
        WorkerResult.mk 22 9 defaultHash, WorkerResult.mk 33 9 defaultHash])
        [WorkerResult.mk 11 5 defaultHash, WorkerResult.mk 22 9 defaultHash,
          WorkerResult.mk 33 9 defaultHash]
      = some (aggregate [WorkerResult.mk 11 5 defaultHash,
          WorkerResult.mk 22 9 defaultHash, WorkerResult.mk 33 9 defaultHash]) :=
  aggregator_first_at_positive_max
    [WorkerResult.mk 11 5 defaultHash, WorkerResult.mk 22 9 defaultHash,
      WorkerResult.mk 33 9 defaultHash] (by decide)

/-- Claim C4: for W at least 1 (and representable in u64) and indices
i < j < W, the partitioner computes exactly the floor quotient times the
index — the saturating operations never clamp on these inputs — and the
starting nonces are strictly increasing in the worker index. -/
theorem partition_start_exact_strict_mono (W i j : Nat) (hW : 1 ≤ W)
    (hWle : W ≤ U64_MAX) (hi : i < W) (hj : j < W) (hij : i < j) :
    partitionStart W i = U64_MAX / W * i ∧
    U64_MAX / W * i ≤ U64_MAX ∧
    partitionStart W i < partitionStart W j := by
  have hq : 1 ≤ U64_MAX / W := (Nat.one_le_div_iff (by omega)).mpr hWle
  have hbound : ∀ k, k < W → U64_MAX / W * k ≤ U64_MAX := by
    intro k hk
    have h1 : U64_MAX / W * k ≤ U64_MAX / W * W :=
      Nat.mul_le_mul_left _ (Nat.le_of_lt hk)
    have h2 : U64_MAX / W * W ≤ U64_MAX := Nat.div_mul_le_self U64_MAX W
    omega
  have heq : ∀ k, k < W → partitionStart W k = U64_MAX / W * k := by
    intro k hk
    unfold partitionStart satMul satDiv
    exact Nat.min_eq_left (hbound k hk)
  refine ⟨heq i hi, hbound i hi, ?_⟩
  rw [heq i hi, heq j hj]
  exact mul_lt_mul_of_pos_left hij (by omega)

/-- Witness for C4 at W = 2: worker 0 starts at 0, strictly below worker
1's start. -/
theorem partition_start_witness :
    partitionStart 2 0 = U64_MAX / 2 * 0 ∧ U64_MAX / 2 * 0 ≤ U64_MAX ∧
    partitionStart 2 0 < partitionStart 2 1 :=
  partition_start_exact_strict_mono 2 0 1 (by decide) (by decide) (by decide)
    (by decide) (by decide)

/-- Counterexample to claim C5 as stated: in benchmark mode the
fixed-duration exit test is not confined to every 1000th iteration — it
runs on every loop pass (main.rs lines 60-62; the nonce % 1000 test only
gates printing). In a run whose elapsed clock reaches the 55-second budget
at iteration 1, the exit test is recorded at both iteration 0 and iteration
1 — two evaluations only one iteration apart — and the loop indeed stops at
iteration 1, far from any multiple of 1000. -/
theorem bench_cutoff_every_iteration_counterexample :
    ((benchStep (fun _ => none) (fun j => if j = 0 then 0 else 55) 55 0)^[2]
      (benchInit 0)).evals = [0, 1] ∧
    ((benchStep (fun _ => none) (fun j => if j = 0 then 0 else 55) 55 0)^[2]
      (benchInit 0)).done = true ∧
    (1 : Nat) < 1000 := by decide

/-- Claim C5 amended: in production mode the cutoff block runs exactly at
the iterations whose nonce (start + j) is divisible by 100 — hence exactly
once in every window of 100 consecutive iterations — while in benchmark
mode the fixed-duration cutoff is evaluated at every single iteration (the
1000-grain only gates the status print). -/
theorem checkpoint_granularity_amended (oracle : Nat → Option (Nat × HashVal))
    (boracle : Nat → Option Nat) (e : Nat → Nat) (c m dur i start n : Nat) :
    (((prodStep oracle e c m i)^[n] (prodInit start)).done = false →
      ((prodStep oracle e c m i)^[n] (prodInit start)).evals
        = (List.range n).filter (prodCheckpoint start)) ∧
    (∃ u, n ≤ u ∧ u < n + 100 ∧ prodCheckpoint start u = true ∧
      ∀ v, n ≤ v → v < n + 100 → prodCheckpoint start v = true → v = u) ∧
    (((benchStep boracle e dur i)^[n] (benchInit start)).done = false →
      ((benchStep boracle e dur i)^[n] (benchInit start)).evals = List.range n) :=
  ⟨fun h => (prod_run_ctrl oracle e c m i start n h).2.2,
   prodCheckpoint_window start n,
   fun h => (bench_run_ctrl boracle e dur i start n h).2⟩

/-- Witness for C5 at a concrete production run (start 0, 5 iterations, no
stop) and a concrete benchmark run (5 iterations, no stop). -/
theorem checkpoint_granularity_witness :
    ((prodStep (fun _ => none) (fun _ => 0) 10 0 0)^[5] (prodInit 0)).evals
      = (List.range 5).filter (prodCheckpoint 0) ∧
    ((benchStep (fun _ => none) (fun _ => 0) 55 0)^[5] (benchInit 0)).evals
      = List.range 5 :=
  ⟨(checkpoint_granularity_amended (fun _ => none) (fun _ => none) (fun _ => 0)
      10 0 55 0 0 5).1 (by decide),
   (checkpoint_granularity_amended (fun _ => none) (fun _ => none) (fun _ => 0)
      10 0 55 0 0 5).2.2 (by decide)⟩

set_option maxRecDepth 4000 in
/-- Counterexample to claim C6 as stated: in benchmark mode the print call
is not gated on the worker index (main.rs lines 50-53). Worker index 1,
started at its real partition start for two workers, reaches a nonce
divisible by 1000 at iteration 193 and emits a status line there. -/
theorem bench_worker1_emits_counterexample :
    ((benchStep (fun _ => some 1) (fun _ => 0) 55 1)^[194]
      (benchInit (partitionStart 2 1))).emits = [193] ∧
    ((benchStep (fun _ => some 1) (fun _ => 0) 55 1)^[194]
      (benchInit (partitionStart 2 1))).emits ≠ [] := by decide

/-- Claim C6 amended: in production mode only the worker with index 0 ever
emits a status line — any worker with nonzero index accumulates no
emissions — while in benchmark mode the step function does not depend on
the worker index at all, so every worker prints under exactly the same
conditions as worker 0. -/
theorem status_emission_amended (oracle : Nat → Option (Nat × HashVal))
    (boracle : Nat → Option Nat) (e : Nat → Nat) (c m dur i start n : Nat) :
    (i ≠ 0 → ((prodStep oracle e c m i)^[n] (prodInit start)).emits = []) ∧
    benchStep boracle e dur i = benchStep boracle e dur 0 :=
  ⟨fun hi => prod_emits_nonzero oracle e c m i start hi n, rfl⟩

/-- Witness for C6: a concrete production run of worker index 1 emits
nothing over 7 iterations. -/
theorem status_emission_witness :
    ((prodStep (fun _ => none) (fun _ => 0) 10 0 1)^[7] (prodInit 0)).emits = [] :=
  (status_emission_amended (fun _ => none) (fun _ => none) (fun _ => 0)
    10 0 55 1 0 7).1 (by decide)

/-- Claim C7: the benchmark report computes average hashes per second as
integer division of the total by the elapsed whole seconds, 0 when no
second has elapsed; and its bucket line ranges over exactly the keys 0
through the maximum observed key, in increasing order, with count 0 for
every key that was never recorded. -/
theorem histogram_report_spec (counts : List (Nat × Nat)) (total elapsed : Nat) :
    ((printReport counts total elapsed).1
      = if elapsed = 0 then 0 else total / elapsed) ∧
    ((printReport counts total elapsed).2.map Prod.fst
      = List.range (maxKey counts + 1)) ∧
    (∀ k, k ≤ maxKey counts →
      (k, lookupCount counts k) ∈ (printReport counts total elapsed).2) ∧
    (∀ k c, (k, c) ∈ (printReport counts total elapsed).2 →
      k ∉ counts.map Prod.fst → c = 0) := by
  refine ⟨?_, ?_, ?_, ?_⟩
  · unfold printReport
    by_cases h : elapsed = 0
    · simp [h]
    · simp [h, Nat.pos_of_ne_zero h]
  · unfold printReport
    simp only [List.map_map]
    have hcomp : (Prod.fst ∘ fun k => (k, lookupCount counts k)) = fun k => k := rfl
    rw [hcomp, List.map_id']
  · intro k hk
    unfold printReport
    simp only [List.mem_map, List.mem_range]
    exact ⟨k, by omega, rfl⟩
  · intro k c hmem hnot
    unfold printReport at hmem
    simp only [List.mem_map, List.mem_range] at hmem
    obtain ⟨a, ha, heq⟩ := hmem
    injection heq with h1 h2
    subst h1
    subst h2
    exact lookupCount_not_mem counts a hnot

/-- Witness for C7 at the map with entries for keys 0 and 3: the report
covers keys 0,1,2,3 in order, and the average over 10 seconds is 100/10. -/
theorem histogram_report_witness :
    ((printReport [(0, 2), (3, 5)] 100 10).1
      = if (10 : Nat) = 0 then 0 else 100 / 10) ∧
    ((printReport [(0, 2), (3, 5)] 100 10).2.map Prod.fst
      = List.range (maxKey [(0, 2), (3, 5)] + 1)) ∧
    ((2, lookupCount [(0, 2), (3, 5)] 2) ∈ (printReport [(0, 2), (3, 5)] 100 10).2) :=
  ⟨(histogram_report_spec [(0, 2), (3, 5)] 100 10).1,
   (histogram_report_spec [(0, 2), (3, 5)] 100 10).2.1,
   (histogram_report_spec [(0, 2), (3, 5)] 100 10).2.2.1 2 (by decide)⟩

/-- Counterexample to claim C8 as stated: the total counter and the bucket
counters are incremented by two separate operations (fetch_add on the
atomic first, mutex-guarded bucket second), so an observation made while a
worker sits between its two increments sees the total ahead of the bucket
sum. After the interleaving [incTotal, incBucket 3, incTotal] — one
completed update plus one update whose bucket increment is still pending —
the total is 2 while the buckets sum to 1. -/
theorem hist_total_midupdate_counterexample :
    (histExec [HistAction.incTotal, HistAction.incBucket 3,
      HistAction.incTotal]).total = 2 ∧
    sumCounts (histExec [HistAction.incTotal, HistAction.incBucket 3,
      HistAction.incTotal]).counts = 1 ∧
    (histExec [HistAction.incTotal, HistAction.incBucket 3,
      HistAction.incTotal]).total
      ≠ sumCounts (histExec [HistAction.incTotal, HistAction.incBucket 3,
          HistAction.incTotal]).counts := by decide

/-- Claim C8 amended: each successful hash contributes one total increment
and one bucket increment (in that order, as two separate operations);
at every observation point at which all updates have completed both halves
— in particular throughout any single worker's own run, and at the final
report after all workers have joined — the total equals the sum of all
bucket counts. Only an observation falling between the two halves of
another worker's update can see them differ. -/
theorem hist_total_eq_sum_amended (ds : List Nat) (oracle : Nat → Option Nat)
    (e : Nat → Nat) (dur i start n : Nat) :
    ((histRun ds).total = sumCounts (histRun ds).counts) ∧
    (∀ (s : HistState) (d : Nat), recordHash s d
      = histStep (histStep s HistAction.incTotal) (HistAction.incBucket d)) ∧
    (((benchStep oracle e dur i)^[n] (benchInit start)).hist.total
      = sumCounts ((benchStep oracle e dur i)^[n] (benchInit start)).hist.counts) :=
  ⟨foldl_recordHash_inv ds hist0 rfl, fun _ _ => rfl,
   bench_run_hist oracle e dur i start n⟩

/-- Claim C9: with a hash oracle that reports no result for every nonce,
a worker's return value is always Ok with its start nonce, difficulty 0 and
the default digest — never an error — and joining any number of such
sentinel results yields the zero-difficulty sentinel (nonce 0, difficulty
0, default digest) as the overall, valid outcome of the search. -/
theorem no_result_sentinel_outcome (e : Nat → Nat) (c m i start n : Nat) :
    workerReturn ((prodStep (fun _ => none) e c m i)^[n] (prodInit start))
      = Except.ok (WorkerResult.mk start 0 defaultHash) ∧
    (∀ starts : List Nat,
      joinResults (starts.map (fun st =>
        (Except.ok (WorkerResult.mk st 0 defaultHash) : Except String WorkerResult)))
      = WorkerResult.mk 0 0 defaultHash) := by
  obtain ⟨h1, h2, h3⟩ := prod_best_none e c m i start n
  refine ⟨?_, ?_⟩
  · unfold workerReturn
    rw [h1, h2, h3]
  · intro starts
    exact foldl_joinStep_sentinels starts initBest

/-- Claim C10: when every worker result carries difficulty 0, the
aggregated result is the initial sentinel — nonce 0 with the default digest
— and the Solution built from it encodes nonce 0: the start nonces carried
in the workers' own sentinel results are discarded. -/
theorem all_zero_aggregate_sentinel (rs : List WorkerResult)
    (h : ∀ r ∈ rs, r.difficulty = 0) :
    aggregate rs = WorkerResult.mk 0 0 defaultHash ∧
    findHashParResult rs = (defaultHash.d, toLeBytes 0) := by
  have hz : aggregate rs = initBest :=
    foldl_aggregate_fix rs initBest (fun r hr => by rw [h r hr]; exact Nat.zero_le _)
  refine ⟨hz, ?_⟩
  unfold findHashParResult
  rw [hz]
  rfl

/-- Witness for C10: two all-zero results with nonzero start nonces 123 and
456; the aggregate is the nonce-0 sentinel and the Solution encodes nonce
0. -/
theorem all_zero_aggregate_sentinel_witness :
    aggregate [WorkerResult.mk 123 0 defaultHash, WorkerResult.mk 456 0 defaultHash]
      = WorkerResult.mk 0 0 defaultHash ∧
    findHashParResult [WorkerResult.mk 123 0 defaultHash,
        WorkerResult.mk 456 0 defaultHash]
      = (defaultHash.d, toLeBytes 0) :=
  all_zero_aggregate_sentinel
    [WorkerResult.mk 123 0 defaultHash, WorkerResult.mk 456 0 defaultHash] (by decide)
